import Mathlib

/-!
Verification of the FastMap embedding engine (malcolmw/FastMap).

The development shallowly embeds the two Python sources:
  src/fastmap/core.py      (class FastMapABC: fit, transform, distance_matrix,
                            furthest, pivot selection, pivot_ids storage)
  src/python/fastmap.py    (class FastMapSVM: _pdist, embed_database,
                            the supervised pivot refinement loop, furthest)

Modelling conventions, used consistently below:
* Machine floats are modelled by exact rationals.  The float constant
  EPSILON = 1e-9 is modelled as the rational 1/10^9.
* numpy square roots are modelled by an abstract function s : Q -> Q that the
  theorems constrain only by the property float sqrt has on the arguments the
  code produces (nonnegative inputs give nonnegative outputs).  Every code
  path squares a distance before reusing it, or clips the argument of the
  square root to be nonnegative first, so the symbolic computation is faithful.
* Objects are an arbitrary inhabited type, the caller supplied distance
  oracle is an arbitrary function into Q: the source treats both as opaque.
* numpy arrays of object rows become lists; the batched distance evaluation
  concatenates its batches in order, which is the same as an unbatched map,
  so the model maps over whole lists.
* A value that numpy makes non finite (division by an exactly zero
  denominator yields inf or nan, with a warning and no exception) is
  modelled as Option.none.
-/

namespace FastMap

/-- The float constant EPSILON = 1e-9 of src/fastmap/core.py line 15,
modelled as the exact rational 1/10^9. -/
def epsQ : ℚ := 1 / 1000000000

/-- Elementwise squared differences of two coordinate rows: the array
dW = square(W_1[i] - W_2[j]) built in distance_matrix (core.py line 290),
furthest (line 318) and transform (lines 419-421). -/
def sqDiffs (wa wb : List ℚ) : List ℚ :=
  List.zipWith (fun a b => (a - b) ^ 2) wa wb

/-- The hyperplane projection loop of core.py, used by distance_matrix
(lines 301-302), furthest (lines 323-324) and transform (lines 425-428):
for each already finalized dimension,
dist = sqrt(clip(dist^2 - dW[i], 0, inf)).
The square root is an abstract parameter s. -/
def residualLoop (s : ℚ → ℚ) : ℚ → List ℚ → ℚ
  | d, [] => d
  | d, w :: ws => residualLoop s (s (max (d ^ 2 - w) 0)) ws

/-- The hyperplane projection of src/python/fastmap.py, _pdist lines 32-37
(identical code in FastMapSVM.distance lines 319-325): the same recursion,
but written with an early return of exactly 0 when the squared correction
exceeds the current squared distance. -/
def pdist (s : ℚ → ℚ) : ℚ → List ℚ → ℚ
  | d, [] => d
  | d, w :: ws => if d ^ 2 < w then 0 else pdist s (s (d ^ 2 - w)) ws

/-- Storage of a chosen pivot index in the pivot index table.  Both sources
declare the table with dtype numpy uint16 (core.py lines 105-111,
fastmap.py lines 173-181), so an assigned index is cast modulo 2^16. -/
def recordPivotId (i : ℕ) : ℕ := i % 65536

/-- The comparison used to model numpy argsort on a distance array: ascending
by distance, ties broken by ascending original index.  numpy argsort sorts
positions of the distance array; the eligible index arrays the sources pass
(arange or argwhere output) are strictly increasing, so position order and
index order coincide.  The spec fixes the stable reading of the sort
(section 4.2 Tie-break), which this relation realizes. -/
def rankLe (dist : ℕ → ℚ) (i j : ℕ) : Prop :=
  dist i < dist j ∨ (dist i = dist j ∧ i ≤ j)

instance (dist : ℕ → ℚ) : DecidableRel (rankLe dist) := fun i j => by
  unfold rankLe; infer_instance

instance (dist : ℕ → ℚ) : IsTotal ℕ (rankLe dist) where
  total i j := by
    rcases lt_trichotomy (dist i) (dist j) with h | h | h
    · exact Or.inl (Or.inl h)
    · rcases le_total i j with hij | hij
      · exact Or.inl (Or.inr ⟨h, hij⟩)
      · exact Or.inr (Or.inr ⟨h.symm, hij⟩)
    · exact Or.inr (Or.inl h)

instance (dist : ℕ → ℚ) : IsTrans ℕ (rankLe dist) where
  trans i j k hij hjk := by
    rcases hij with h1 | ⟨h1, h1i⟩
    · rcases hjk with h2 | ⟨h2, _⟩
      · exact Or.inl (h1.trans h2)
      · exact Or.inl (h2 ▸ h1)
    · rcases hjk with h2 | ⟨h2, h2i⟩
      · exact Or.inl (h1 ▸ h2)
      · exact Or.inr ⟨h1.trans h2, h1i.trans h2i⟩

/-- The ranking returned by furthest (core.py lines 307-327, fastmap.py lines
408-418): sort the eligible indices by residual distance ascending with the
stable tie-break, then reverse the whole ranking with [-1::-1]. -/
def furthest (dist : ℕ → ℚ) (idxs : List ℕ) : List ℕ :=
  (List.insertionSort (rankLe dist) idxs).reverse

/-- Position of the first occurrence of a value in a list; 0 when absent at
the head recursion end.  Used to express which of two eligible objects is
ranked first by furthest. -/
def posIn (a : ℕ) : List ℕ → ℕ
  | [] => 0
  | b :: t => if a = b then 0 else posIn a t + 1

/-- The loop "for obj in furthest: if obj not in forbidden: break" used in
_choose_pivots (core.py lines 230-241, fastmap.py lines 253-260): when some
ranked object is not forbidden the first such object is selected; when every
ranked object is forbidden the loop variable is left holding the LAST ranked
object (Python for loops leak the final binding); on an empty ranking the
variable stays unbound, modelled as none. -/
def pickCode (forbidden l : List ℕ) : Option ℕ :=
  match l.find? (fun x => !(forbidden.contains x)) with
  | some x => some x
  | none => l.getLast?

/-- The same selection restricted to the intended case in which some ranked
object is not forbidden; it returns none when the for loop would fall
through with a forbidden or unbound binding.  Success of this strict picker
is exactly the "enough distinct objects" precondition. -/
def pickStrict (forbidden l : List ℕ) : Option ℕ :=
  l.find? (fun x => !(forbidden.contains x))

/-- The forbidden set read by _choose_pivots: pivot_ids[:d].flatten(), i.e.
all RECORDED (uint16 cast, see recordPivotId) pivot indices of the earlier
dimensions, both slots (core.py line 214, fastmap.py line 243). -/
def recordedFlatten (acc : List (ℕ × ℕ)) : List ℕ :=
  (acc.map (fun p => [recordPivotId p.1, recordPivotId p.2])).flatten

/-- One dimension of pivot selection as fit runs it: from the ranking of the
first furthest call take the first non forbidden object as pivot i, from the
ranking of the second furthest call take the first non forbidden object as
pivot j (core.py lines 214-243).  The rankings are inputs here: the random
seed draw only determines which rankings the two furthest calls produce, so
theorems quantify over them. -/
def choosePivotsFrom (pick : List ℕ → List ℕ → Option ℕ)
    (forbidden : List ℕ) (rA rB : List ℕ) : Option (ℕ × ℕ) :=
  match pick forbidden rA, pick forbidden rB with
  | some i, some j => some (i, j)
  | _, _ => none

/-- The pivot accumulation loop of fit (core.py lines 365-369): per dimension
choose a pivot pair against the forbidden set built from the recorded table
so far, then record the pair (uint16 cast happens at read back time in
recordedFlatten).  The scenario list carries, per dimension, the two
furthest rankings. -/
def fitPivotsAux (pick : List ℕ → List ℕ → Option ℕ) :
    List (ℕ × ℕ) → List (List ℕ × List ℕ) → Option (List (ℕ × ℕ))
  | acc, [] => some acc
  | acc, (rA, rB) :: rest =>
      match choosePivotsFrom pick (recordedFlatten acc) rA rB with
      | some p => fitPivotsAux pick (acc ++ [p]) rest
      | none => none

/-- Pivot table produced by the code semantics of the selection loop. -/
def fitPivotsCode (scen : List (List ℕ × List ℕ)) : Option (List (ℕ × ℕ)) :=
  fitPivotsAux pickCode [] scen

/-- Pivot table produced when every selection finds a non forbidden object. -/
def fitPivotsStrict (scen : List (List ℕ × List ℕ)) : Option (List (ℕ × ℕ)) :=
  fitPivotsAux pickStrict [] scen

/-- The pivot exclusivity invariant: across the dimensions of a pivot table,
no object index occurs in more than one dimension, counting both slots. -/
def PivotsExclusive (T : List (ℕ × ℕ)) : Prop :=
  T.Pairwise (fun p q => p.1 ≠ q.1 ∧ p.1 ≠ q.2 ∧ p.2 ≠ q.1 ∧ p.2 ≠ q.2)

instance (T : List (ℕ × ℕ)) : Decidable (PivotsExclusive T) := by
  unfold PivotsExclusive; infer_instance

/-- Errors that supervised pivot selection can raise mid run. -/
inductive SupError where
  /-- numpy random.choice raises ValueError when drawing from an empty
  class 1 index pool (core.py line 221 with argwhere(y == 1) empty). -/
  | emptyChoicePool : SupError
  /-- the for loop over an empty furthest ranking never binds its loop
  variable, so the following use of it raises a NameError
  (core.py lines 230-238 with an empty class 0 or class 1 pool). -/
  | unboundLoopVar : SupError
deriving DecidableEq

/-- Index pool of a class label: argwhere(y == c).flatten() over the label
array (core.py lines 218 and 316). -/
def classIdxs (y : List ℕ) (c : ℕ) : List ℕ :=
  (List.range y.length).filter (fun i => y.getD i 0 == c)

/-- The part of fit that runs before the embedding loop (core.py lines
355-362): the X and y setters and the allocation of W.  The y setter
(lines 185-191) stores the labels and sets the supervised flag without any
validation of the label classes, so this phase cannot raise a configuration
error; its result is the supervised flag. -/
def fitSetup (y : Option (List ℕ)) : Except SupError Bool :=
  Except.ok y.isSome

/-- Supervised pivot selection at dimension 0 (core.py lines 214-243 with an
empty forbidden set, as in the first fit iteration).  The random draw is an
input function; with no forbidden indices the first draw from the class 1
pool is accepted, so the while loop is one draw, raising only when the pool
is empty.  The two furthest calls rank the class 0 and class 1 pools by raw
distance (dimension 0 has no residual corrections). -/
def choosePivotsSupervised (df : ℕ → ℕ → ℚ) (draw : List ℕ → ℕ)
    (y : List ℕ) : Except SupError (ℕ × ℕ) :=
  match classIdxs y 1 with
  | [] => Except.error SupError.emptyChoicePool
  | _ :: _ =>
      let j0 := draw (classIdxs y 1)
      match pickCode [] (furthest (fun k => df k j0) (classIdxs y 0)) with
      | none => Except.error SupError.unboundLoopVar
      | some i =>
          match pickCode [] (furthest (fun k => df k i) (classIdxs y 1)) with
          | none => Except.error SupError.unboundLoopVar
          | some j => Except.ok (i, j)

/-- One round of the supervised farthest point refinement
(fastmap.py _choose_pivots lines 252-260): from the current candidate j,
F picks the new pivot i (first non forbidden object of furthest(j, label 0))
and G picks the new pivot j (first non forbidden object of
furthest(i, label 1)). -/
def refineStep (F G : ℕ → ℕ) (j : ℕ) : ℕ × ℕ :=
  (F j, G (F j))

/-- The refinement loop of fastmap.py _choose_pivots lines 250-265:
"while True: compute the pair; if it equals the previous pair, break".
The source has NO iteration cap; the fuel argument only bounds how long the
model observes the loop, so a return of none for every fuel is
non termination of the source loop. -/
def refineLoop (F G : ℕ → ℕ) : Option (ℕ × ℕ) → ℕ → ℕ → Option (ℕ × ℕ)
  | _, _, 0 => none
  | prev, j, fuel + 1 =>
      let p := refineStep F G j
      if prev = some p then some p else refineLoop F G (some p) p.2 fuel

/-- Entry into the refinement loop: the previous pair starts as the Python
pair (None, None), never equal to a computed pair, and the first candidate
j comes from the random class 1 draw. -/
def refineLoopStart (F G : ℕ → ℕ) (j0 fuel : ℕ) : Option (ℕ × ℕ) :=
  refineLoop F G none j0 fuel

/-- Non termination of the refinement loop from initial candidate j0: no
amount of fuel makes it return. -/
def RefineDiverges (F G : ℕ → ℕ) (j0 : ℕ) : Prop :=
  ∀ fuel : ℕ, refineLoopStart F G j0 fuel = none

/-- A concrete deterministic distance oracle on four objects, class 1 pool
[0, 1] and class 0 pool [2, 3].  It is non negative but asymmetric, which
the sources never check (the spec assumes symmetry without checking it).
Rows list the distances from each object to objects 0..3. -/
def oscDist : ℕ → ℕ → ℚ
  | 0, 2 => 5
  | 0, 3 => 1
  | 1, 2 => 1
  | 1, 3 => 5
  | 2, 0 => 1
  | 2, 1 => 5
  | 3, 0 => 5
  | 3, 1 => 1
  | _, _ => 0

/-- The F selection induced by oscDist at dimension 0 (no forbidden
indices, no residual corrections, the fastmap.py pdist argument order
distance(X[query], X[candidate])): first object of furthest(j, label 0). -/
def oscF (j : ℕ) : ℕ :=
  (pickCode [] (furthest (fun k => oscDist j k) [2, 3])).getD 0

/-- The G selection induced by oscDist: first object of
furthest(i, label 1). -/
def oscG (i : ℕ) : ℕ :=
  (pickCode [] (furthest (fun k => oscDist i k) [0, 1])).getD 0

/-- The attribute state of a FastMapABC instance, with one Option field per
lazily created or deletable attribute of core.py.  none models an attribute
that is absent (deleted or never created). -/
structure FMState where
  /-- current dimension cursor self un_ihyprpln. -/
  ihyprpln : ℕ
  /-- target dimensionality self un_n_dim. -/
  n_dim : ℕ
  /-- pivot index table self un_pivot_ids, one index pair per dimension. -/
  pivot_ids : Option (List (ℕ × ℕ))
  /-- raw training objects self un_X. -/
  X : Option (List ℚ)
  /-- training embedding matrix self W, one coordinate row per object. -/
  W : Option (List (List ℚ))
  /-- labels self un_y. -/
  y : Option (List ℕ)
  /-- raw pivot snapshots self un_X_piv, one object pair per dimension. -/
  X_piv : Option (List (ℚ × ℚ))
  /-- pivot embedding snapshots self un_W_piv, one row pair per dimension. -/
  W_piv : Option (List (List ℚ × List ℚ))
deriving DecidableEq

/-- The end of fit (core.py lines 383-391): populate W_piv from the
finalized rows of W at the recorded pivot indices, then delete the pivot
index table, the raw objects, the embedding matrix and the labels
(del(self un_pivot_ids, self un_X, self W) and the conditional del of
self un_y), and reset the dimension cursor to 0. -/
def fitFinalize (s : FMState) : FMState :=
  { s with
    W_piv :=
      match s.W, s.pivot_ids with
      | some W, some T =>
          some (T.map (fun p => (W.getD p.1 [], W.getD p.2 [])))
      | _, _ => s.W_piv,
    pivot_ids := none,
    X := none,
    W := none,
    y := none,
    ihyprpln := 0 }

/-- The dimension cursor after transform on n_obj objects (core.py lines
406-433): the batch loop runs when n_obj is positive, and inside it
"for self un_ihyprpln in range(self n_dim)" leaves the cursor at
n_dim - 1; transform never resets it. -/
def transformEndCursor (s : FMState) (n_obj : ℕ) : ℕ :=
  if n_obj = 0 ∨ s.n_dim = 0 then s.ihyprpln else s.n_dim - 1

/-- A concrete trained two dimension state just before fit finalization. -/
def sampleFitState : FMState :=
  { ihyprpln := 1
    n_dim := 2
    pivot_ids := some [(0, 1), (2, 3)]
    X := some [5, 7, 11, 13]
    W := some [[0, 1], [2, 3], [4, 5], [6, 7]]
    y := none
    X_piv := some [(5, 7), (11, 13)]
    W_piv := none }

/-- The FastMap coordinate formula shared by fit (core.py lines 372-377)
and transform (lines 429-432):
(d_ik^2 + d_ij^2 - d_jk^2) / (2 * d_ij + EPSILON).
fit writes the numerator as d_ik^2 - d_jk^2 + d_ij^2 and the denominator as
2 * d_ij + EPSILON, transform as d_ij * 2 + EPSILON; the rational values
are identical. -/
def coordFormula (dik dij djk : ℚ) : ℚ :=
  (dik ^ 2 + dij ^ 2 - djk ^ 2) / (2 * dij + epsQ)

/-- Residual distance between two objects from their raw distance and their
current coordinate rows: the distance_matrix computation of core.py lines
289-304 for a single pair. -/
def residDist (s : ℚ → ℚ) (raw : ℚ) (wa wb : List ℚ) : ℚ :=
  residualLoop s raw (sqDiffs wa wb)

/-- The coordinate fit computes for object k at the current dimension,
before the clip to zero, given the current embedding rows W and the pivot
pair p (core.py lines 371-377).  Rows in W have exactly one entry per
finalized dimension, so the residual loops run over the right corrections. -/
def fitCoordAt {α : Type} [Inhabited α] (s : ℚ → ℚ) (df : α → α → ℚ)
    (X : List α) (W : List (List ℚ)) (p : ℕ × ℕ) (k : ℕ) : ℚ :=
  coordFormula
    (residDist s (df (X.getD k default) (X.getD p.1 default))
      (W.getD k []) (W.getD p.1 []))
    (residDist s (df (X.getD p.1 default) (X.getD p.2 default))
      (W.getD p.1 []) (W.getD p.2 []))
    (residDist s (df (X.getD k default) (X.getD p.2 default))
      (W.getD k []) (W.getD p.2 []))

/-- One dimension of the fit loop (core.py lines 365-381): compute every
object's coordinate against the pivot pair p, clip negatives to zero, and
append the finalized column to the rows. -/
def fitStep {α : Type} [Inhabited α] (s : ℚ → ℚ) (df : α → α → ℚ)
    (X : List α) (W : List (List ℚ)) (p : ℕ × ℕ) : List (List ℚ) :=
  (List.range X.length).map
    (fun k => W.getD k [] ++ [max (fitCoordAt s df X W p k) 0])

/-- The embedding matrix built by fit over a sequence of chosen pivot
pairs: one coordinate row per training object, one entry per dimension.
The pivot pairs are inputs: pivot selection is randomized and is modelled
separately. -/
def fitW {α : Type} [Inhabited α] (s : ℚ → ℚ) (df : α → α → ℚ)
    (X : List α) (pivs : List (ℕ × ℕ)) : List (List ℚ) :=
  pivs.foldl (fitStep s df X) ((List.range X.length).map (fun _ => ([] : List ℚ)))

/-- The unclipped fit coordinate of object k at dimension e: the value fit
computes at line 377 before the clip of line 379, with the embedding rows
holding dimensions 0..e-1. -/
def fitPre {α : Type} [Inhabited α] (s : ℚ → ℚ) (df : α → α → ℚ)
    (X : List α) (pivs : List (ℕ × ℕ)) (k e : ℕ) : ℚ :=
  fitCoordAt s df X (fitW s df X (pivs.take e)) (pivs.getD e (0, 0)) k

/-- One dimension of the transform loop for a single new object x with
partial embedding row r (core.py lines 418-433): the raw distances to the
stored pivot pair and between the stored pivots are residual corrected over
the finalized dimensions (the stored pivot rows are truncated to the first
r.length entries, the partial row r contributes all of its entries), then
the coordinate formula is applied WITHOUT the clip to zero and the new
coordinate is appended.  Each object of a batch is processed elementwise,
so a per object model is faithful. -/
def transStep {α : Type} (s : ℚ → ℚ) (df : α → α → ℚ) (x : α)
    (r : List ℚ) (pd : (α × α) × (List ℚ × List ℚ)) : List ℚ :=
  r ++ [coordFormula
    (residualLoop s (df x pd.1.1) (sqDiffs r pd.2.1))
    (residualLoop s (df pd.1.1 pd.1.2) ((sqDiffs pd.2.1 pd.2.2).take r.length))
    (residualLoop s (df x pd.1.2) (sqDiffs r pd.2.2))]

/-- The embedding row transform computes for one new object x from the
persisted per dimension pivot data (raw pivot pair and pivot embedding
rows), core.py lines 395-435. -/
def transformRow {α : Type} (s : ℚ → ℚ) (df : α → α → ℚ)
    (pivData : List ((α × α) × (List ℚ × List ℚ))) (x : α) : List ℚ :=
  pivData.foldl (transStep s df x) []

/-- The trained artifact consumed by transform: for each dimension, the raw
snapshots X_piv (core.py lines 368-369) and the embedding snapshots W_piv
taken from the finalized rows of W at the pivot indices (lines 383-385). -/
def trainedPivData {α : Type} [Inhabited α] (s : ℚ → ℚ) (df : α → α → ℚ)
    (X : List α) (pivs : List (ℕ × ℕ)) :
    List ((α × α) × (List ℚ × List ℚ)) :=
  pivs.map (fun p =>
    ((X.getD p.1 default, X.getD p.2 default),
      ((fitW s df X pivs).getD p.1 [], (fitW s df X pivs).getD p.2 [])))

/-- The stored pivot embedding snapshot W_piv[d] of a trained model. -/
def WpivRows {α : Type} [Inhabited α] (s : ℚ → ℚ) (df : α → α → ℚ)
    (X : List α) (pivs : List (ℕ × ℕ)) (d : ℕ) : List ℚ × List ℚ :=
  ((fitW s df X pivs).getD (pivs.getD d (0, 0)).1 [],
    (fitW s df X pivs).getD (pivs.getD d (0, 0)).2 [])

/-- Division as numpy computes it elementwise on floats: an exactly zero
denominator yields a non finite value (inf or nan, with a warning and no
exception), modelled as none. -/
def safeDiv (x y : ℚ) : Option ℚ :=
  if y = 0 then none else some (x / y)

/-- The coordinate computation of fit in core.py (lines 372-381): numerator
d_ik^2 + d_ij^2 - d_jk^2, denominator 2 * d_ij + EPSILON, then the clip of
negatives to zero, with non finite results tracked by safeDiv. -/
def fitCoordGuarded (dik dij djk : ℚ) : Option ℚ :=
  (safeDiv (dik ^ 2 + dij ^ 2 - djk ^ 2) (2 * dij + epsQ)).map
    (fun q => max q 0)

/-- The coordinate computation of embed_database in fastmap.py (lines
372-379): the same numerator but denominator 2 * d_ij with NO epsilon term,
then d[d < 0] = 0, which leaves a non finite value unchanged. -/
def embedDbCoord (dik dij djk : ℚ) : Option ℚ :=
  (safeDiv (dik ^ 2 + dij ^ 2 - djk ^ 2) (2 * dij)).map
    (fun q => max q 0)

/-- A concrete deterministic symmetric nonnegative distance oracle on four
training objects, chosen so that object 2 has a NEGATIVE unclipped fit
coordinate at dimension 0: distances 0-1: 12, 0-2: 1, 0-3: 10, 1-2: 13,
1-3: 9, 2-3: 8 (the triangle violation 1 + 144 < 169 drives the clip).
With these distances the unsupervised pivot selection can choose pivots
(0, 1) at dimension 0 and (2, 3) at dimension 1 (initial random draws 3
and 3; the dimension 1 ranking is order invariant under any monotone
square root). -/
def dConc : ℕ → ℕ → ℚ
  | 0, 1 => 12
  | 1, 0 => 12
  | 0, 2 => 1
  | 2, 0 => 1
  | 0, 3 => 10
  | 3, 0 => 10
  | 1, 2 => 13
  | 2, 1 => 13
  | 1, 3 => 9
  | 3, 1 => 9
  | 2, 3 => 8
  | 3, 2 => 8
  | _, _ => 0

/-- The four training objects of the concrete model, represented by their
indices. -/
def XConc : List ℕ := [0, 1, 2, 3]

/-- The pivot pairs of the concrete model: dimension 0 uses objects (0, 1),
dimension 1 uses objects (2, 3). -/
def pivsConc : List (ℕ × ℕ) := [(0, 1), (2, 3)]

/-- A two object training set with oracle distance 1 between the objects
and 0 otherwise. -/
def dTiny : ℕ → ℕ → ℚ
  | 0, 1 => 1
  | 1, 0 => 1
  | _, _ => 0

/-- The two training objects of the tiny model. -/
def XTiny : List ℕ := [0, 1]

lemma residualLoop_nonneg (s : ℚ → ℚ) (hs : ∀ x, 0 ≤ x → 0 ≤ s x) :
    ∀ (dW : List ℚ) (d : ℚ), 0 ≤ d → 0 ≤ residualLoop s d dW := by
  intro dW
  induction dW with
  | nil => intro d hd; simpa [residualLoop] using hd
  | cons w ws ih =>
      intro d _
      have harg : (0 : ℚ) ≤ max (d ^ 2 - w) 0 := le_max_right _ _
      exact ih _ (hs _ harg)

lemma pdist_nonneg (s : ℚ → ℚ) (hs : ∀ x, 0 ≤ x → 0 ≤ s x) :
    ∀ (dW : List ℚ) (d : ℚ), 0 ≤ d → 0 ≤ pdist s d dW := by
  intro dW
  induction dW with
  | nil => intro d hd; simpa [pdist] using hd
  | cons w ws ih =>
      intro d hd
      by_cases h : d ^ 2 < w
      · simp [pdist, h]
      · have harg : (0 : ℚ) ≤ d ^ 2 - w := by
          have := not_lt.mp h
          linarith
        simpa [pdist, h] using ih _ (hs _ harg)

/-- C1: for every raw distance d at least 0 and every list of per dimension
squared coordinate differences, the residual distance produced by the
hyperplane projection loop is at least 0, in both of its source forms: the
clip to zero form of core.py distance_matrix and furthest, and the early
return form of fastmap.py _pdist.  The abstract square root s is constrained
only on nonnegative inputs, which is where both loops call it, so no error
can arise from a negative square root argument; underflow is clamped to a
zero distance. -/
theorem claim_C1 (s : ℚ → ℚ) (hs : ∀ x, 0 ≤ x → 0 ≤ s x)
    (d : ℚ) (hd : 0 ≤ d) (dW : List ℚ) :
    0 ≤ residualLoop s d dW ∧ 0 ≤ pdist s d dW :=
  ⟨residualLoop_nonneg s hs dW d hd, pdist_nonneg s hs dW d hd⟩

/-- Witness for C1 at the identity square root, raw distance 3 and squared
corrections [4, 25]. -/
theorem claim_C1_witness :
    0 ≤ residualLoop (fun x => x) 3 [4, 25] ∧
      0 ≤ pdist (fun x => x) 3 [4, 25] :=
  claim_C1 (fun x => x) (fun _ hx => hx) 3 (by norm_num) [4, 25]

/-- C10: the pivot index table has 16 bit unsigned entries, so a chosen
pivot index i is recorded as i mod 2^16; with a training set of at most
65535 objects every index is below 2^16 and is recorded faithfully, and
beyond that bound faithfulness fails (index 65536 is recorded as 0). -/
theorem claim_C10 :
    (∀ i : ℕ, recordPivotId i = i % 2 ^ 16) ∧
      (∀ n : ℕ, n ≤ 65535 → ∀ i : ℕ, i < n → recordPivotId i = i) ∧
      recordPivotId 65536 ≠ 65536 := by
  refine ⟨fun i => rfl, fun n hn i hi => ?_, by decide⟩
  have : i < 65536 := lt_of_lt_of_le hi (le_trans hn (by norm_num))
  exact Nat.mod_eq_of_lt this

/-- Witness for C10: the general statement evaluated at index 70000 for the
modular form and at index 3 of a 4 object training set for faithfulness. -/
theorem claim_C10_witness :
    recordPivotId 70000 = 70000 % 2 ^ 16 ∧ recordPivotId 3 = 3 :=
  ⟨claim_C10.1 70000, claim_C10.2.1 4 (by norm_num) 3 (by norm_num)⟩

lemma posIn_lt_of_pairwise {R : ℕ → ℕ → Prop} :
    ∀ l : List ℕ, l.Pairwise R → ∀ a b : ℕ, a ∈ l → b ∈ l → a ≠ b →
      ¬R a b → posIn b l < posIn a l := by
  intro l
  induction l with
  | nil => intro _ a b ha; exact absurd ha (List.not_mem_nil a)
  | cons c t ih =>
      intro hp a b ha hb hab hnR
      rcases List.pairwise_cons.mp hp with ⟨hc, ht⟩
      by_cases hac : a = c
      · subst hac
        have hbt : b ∈ t := by
          rcases List.mem_cons.mp hb with h | h
          · exact absurd h.symm hab
          · exact h
        exact absurd (hc b hbt) hnR
      · by_cases hbc : b = c
        · subst hbc
          simp only [posIn, if_neg hac, if_pos rfl]
          exact Nat.succ_pos _
        · have hat : a ∈ t := by
            rcases List.mem_cons.mp ha with h | h
            · exact absurd h hac
            · exact h
          have hbt : b ∈ t := by
            rcases List.mem_cons.mp hb with h | h
            · exact absurd h hbc
            · exact h
          simp only [posIn, if_neg hac, if_neg hbc]
          exact Nat.succ_lt_succ (ih ht a b hat hbt hab hnR)

/-- C9 counterexample: two eligible objects 0 and 1 at the same residual
distance 5 from the query.  The stable ascending sort puts index 0 first,
and the full reversal then ranks index 1 first, so the object with the
smaller original index is not ranked first as the claim states. -/
theorem claim_C9_counterexample :
    furthest (fun _ => (5 : ℚ)) [0, 1] = [1, 0] ∧
      ¬ posIn 0 (furthest (fun _ => (5 : ℚ)) [0, 1]) <
          posIn 1 (furthest (fun _ => (5 : ℚ)) [0, 1]) := by
  constructor
  · rfl
  · decide

/-- C9 amended: the furthest ranking is the full stable ascending sort of
residual distances followed by a whole list reversal, so it is descending in
distance and, among objects at equal residual distance, the object with the
LARGER original index is ranked first (the reversal flips the stable
ascending tie order). -/
theorem claim_C9 (dist : ℕ → ℚ) (idxs : List ℕ) (i j : ℕ)
    (hi : i ∈ idxs) (hj : j ∈ idxs) (hij : i < j) (hd : dist i = dist j) :
    posIn j (furthest dist idxs) < posIn i (furthest dist idxs) := by
  have hsorted : List.Sorted (rankLe dist) (List.insertionSort (rankLe dist) idxs) :=
    List.sorted_insertionSort (rankLe dist) idxs
  have hpw : (furthest dist idxs).Pairwise (fun a b => rankLe dist b a) := by
    unfold furthest
    exact (List.pairwise_reverse).mpr hsorted
  have hmem : ∀ a : ℕ, a ∈ idxs → a ∈ furthest dist idxs := by
    intro a ha
    unfold furthest
    rw [List.mem_reverse, List.mem_insertionSort]
    exact ha
  have hne : i ≠ j := Nat.ne_of_lt hij
  have hnR : ¬ (fun a b => rankLe dist b a) i j := by
    intro h
    rcases h with h | ⟨_, hji⟩
    · rw [hd] at h; exact lt_irrefl _ h
    · exact absurd hji (not_le.mpr hij)
  exact posIn_lt_of_pairwise _ hpw i j (hmem i hi) (hmem j hj) hne hnR

/-- Witness for C9 amended: three objects with distances 7, 4, 7; objects 0
and 2 tie, and 2 is ranked strictly before 0. -/
theorem claim_C9_witness :
    posIn 2 (furthest (fun k => if k = 1 then (4 : ℚ) else 7) [0, 1, 2]) <
      posIn 0 (furthest (fun k => if k = 1 then (4 : ℚ) else 7) [0, 1, 2]) :=
  claim_C9 (fun k => if k = 1 then (4 : ℚ) else 7) [0, 1, 2] 0 2
    (by decide) (by decide) (by decide) (by norm_num)

lemma fitPivotsAux_mem_acc (pick : List ℕ → List ℕ → Option ℕ) :
    ∀ (scen : List (List ℕ × List ℕ)) (acc T : List (ℕ × ℕ)),
      fitPivotsAux pick acc scen = some T → ∀ p ∈ acc, p ∈ T := by
  intro scen
  induction scen with
  | nil =>
      intro acc T h p hp
      simp only [fitPivotsAux] at h
      exact Option.some.inj h ▸ hp
  | cons hd rest ih =>
      intro acc T h p hp
      obtain ⟨rA, rB⟩ := hd
      simp only [fitPivotsAux] at h
      cases hc : choosePivotsFrom pick (recordedFlatten acc) rA rB with
      | none => rw [hc] at h; exact absurd h (by simp)
      | some q =>
          rw [hc] at h
          exact ih _ T h p (List.mem_append_left _ hp)

lemma pickStrict_not_forbidden {forbidden l : List ℕ} {x : ℕ}
    (h : pickStrict forbidden l = some x) : x ∉ forbidden := by
  have := List.find?_some h
  intro hx
  rw [Bool.not_eq_true', List.contains_eq_any_beq] at this
  simp only [List.any_eq_false] at this
  exact absurd (by simp : (x == x) = true) (this x hx)

lemma mem_recordedFlatten {acc : List (ℕ × ℕ)} {a : ℕ} {p : ℕ × ℕ}
    (hp : p ∈ acc) (ha : a = recordPivotId p.1 ∨ a = recordPivotId p.2) :
    a ∈ recordedFlatten acc := by
  unfold recordedFlatten
  rw [List.mem_flatten]
  refine ⟨[recordPivotId p.1, recordPivotId p.2], List.mem_map_of_mem _ hp, ?_⟩
  rcases ha with h | h <;> simp [h]

lemma fitPivotsAux_exclusive :
    ∀ (scen : List (List ℕ × List ℕ)) (acc T : List (ℕ × ℕ)),
      fitPivotsAux pickStrict acc scen = some T →
      (∀ p ∈ T, p.1 < 65536 ∧ p.2 < 65536) →
      PivotsExclusive acc → PivotsExclusive T := by
  intro scen
  induction scen with
  | nil =>
      intro acc T h _ hacc
      simp only [fitPivotsAux] at h
      exact Option.some.inj h ▸ hacc
  | cons hd rest ih =>
      intro acc T h hsmall hacc
      obtain ⟨rA, rB⟩ := hd
      simp only [fitPivotsAux] at h
      cases hc : choosePivotsFrom pickStrict (recordedFlatten acc) rA rB with
      | none => rw [hc] at h; exact absurd h (by simp)
      | some q =>
          rw [hc] at h
          refine ih _ T h hsmall ?_
          -- the new pair q avoids every recorded slot of acc
          unfold choosePivotsFrom at hc
          cases hA : pickStrict (recordedFlatten acc) rA with
          | none => rw [hA] at hc; exact absurd hc (by simp)
          | some i =>
              cases hB : pickStrict (recordedFlatten acc) rB with
              | none => rw [hA, hB] at hc; exact absurd hc (by simp)
              | some j =>
                  rw [hA, hB] at hc
                  have hq : q = (i, j) := by
                    simpa using hc.symm
                  subst hq
                  have hiT : (i, j) ∈ T :=
                    fitPivotsAux_mem_acc pickStrict rest (acc ++ [(i, j)]) T h
                      (i, j) (List.mem_append_right _ (by simp))
                  have hinf : i ∉ recordedFlatten acc := pickStrict_not_forbidden hA
                  have hjnf : j ∉ recordedFlatten acc := pickStrict_not_forbidden hB
                  unfold PivotsExclusive
                  rw [List.pairwise_append]
                  refine ⟨hacc, by simp, ?_⟩
                  intro p hp p2 hp2
                  have hp2e : p2 = (i, j) := by simpa using hp2
                  subst hp2e
                  have hpT : p ∈ T :=
                    fitPivotsAux_mem_acc pickStrict rest (acc ++ [(i, j)]) T h
                      p (List.mem_append_left _ hp)
                  have hps := hsmall p hpT
                  have hrec1 : recordPivotId p.1 = p.1 := Nat.mod_eq_of_lt hps.1
                  have hrec2 : recordPivotId p.2 = p.2 := Nat.mod_eq_of_lt hps.2
                  have h1 : p.1 ∈ recordedFlatten acc :=
                    mem_recordedFlatten hp (Or.inl hrec1.symm)
                  have h2 : p.2 ∈ recordedFlatten acc :=
                    mem_recordedFlatten hp (Or.inr hrec2.symm)
                  show p.1 ≠ i ∧ p.1 ≠ j ∧ p.2 ≠ i ∧ p.2 ≠ j
                  exact ⟨fun e => hinf (e ▸ h1), fun e => hjnf (e ▸ h1),
                    fun e => hinf (e ▸ h2), fun e => hjnf (e ▸ h2)⟩

lemma fitPivotsAux_strict_code :
    ∀ (scen : List (List ℕ × List ℕ)) (acc T : List (ℕ × ℕ)),
      fitPivotsAux pickStrict acc scen = some T →
      fitPivotsAux pickCode acc scen = some T := by
  intro scen
  induction scen with
  | nil => intro acc T h; simpa [fitPivotsAux] using h
  | cons hd rest ih =>
      intro acc T h
      obtain ⟨rA, rB⟩ := hd
      simp only [fitPivotsAux, choosePivotsFrom] at h ⊢
      cases hA : pickStrict (recordedFlatten acc) rA with
      | none => rw [hA] at h; simp at h
      | some i =>
          cases hB : pickStrict (recordedFlatten acc) rB with
          | none => rw [hA, hB] at h; simp at h
          | some j =>
              rw [hA, hB] at h
              have hcA : pickCode (recordedFlatten acc) rA = some i := by
                unfold pickCode
                unfold pickStrict at hA
                rw [hA]
              have hcB : pickCode (recordedFlatten acc) rB = some j := by
                unfold pickCode
                unfold pickStrict at hB
                rw [hB]
              rw [hcA, hcB]
              exact ih _ T h

/-- C4 counterexample: a training run with more than 65535 objects.  At
dimension 0 the rankings select objects 70000 and 70001; the table records
them modulo 2^16 as 4464 and 4465.  At dimension 1 the ranking again leads
with object 70000, which is not equal to any RECORDED forbidden value, so
the selection reuses object 70000 as a pivot: an object index appears as a
pivot in two dimensions even though the run had enough distinct objects. -/
theorem claim_C4_counterexample :
    fitPivotsCode [([70000, 4464], [70001, 4465]), ([70000, 4464], [70001, 4465])] =
        some [(70000, 70001), (70000, 70001)] ∧
      ¬ PivotsExclusive [(70000, 70001), (70000, 70001)] := by
  constructor
  · rfl
  · decide

/-- C4 amended: across all dimensions of a training run, no object index
appears as a pivot in more than one dimension (both slots combined),
PROVIDED that at every dimension both furthest rankings contain an object
outside the forbidden set (enough distinct objects, i.e. the strict
selection succeeds) AND every chosen pivot index is below 2^16 (at most
65535 training objects), so that the uint16 recorded table reproduces the
chosen indices; under the same conditions the code loop (whose for
statement would otherwise fall through to a forbidden or unbound binding)
computes exactly the strict table. -/
theorem claim_C4 (scen : List (List ℕ × List ℕ)) (T : List (ℕ × ℕ))
    (hrun : fitPivotsStrict scen = some T)
    (hsmall : ∀ p ∈ T, p.1 < 65536 ∧ p.2 < 65536) :
    PivotsExclusive T ∧ fitPivotsCode scen = some T :=
  ⟨fitPivotsAux_exclusive scen [] T hrun hsmall List.Pairwise.nil,
    fitPivotsAux_strict_code scen [] T hrun⟩

/-- Witness for C4 amended: a two dimension run selecting pivots (5, 7) then
(6, 8); the table is exclusive and the code loop agrees. -/
theorem claim_C4_witness :
    PivotsExclusive [(5, 7), (6, 8)] ∧
      fitPivotsCode [([5, 9], [7, 9]), ([6, 9], [8, 9])] =
        some [(5, 7), (6, 8)] :=
  claim_C4 [([5, 9], [7, 9]), ([6, 9], [8, 9])] [(5, 7), (6, 8)]
    (by decide) (by decide)

lemma classIdxs_eq_nil {y : List ℕ} {c : ℕ} (h : ∀ v ∈ y, v ≠ c) :
    classIdxs y c = [] := by
  unfold classIdxs
  rw [List.filter_eq_nil_iff]
  intro i hi
  rw [List.mem_range] at hi
  have hv : y.getD i 0 ∈ y := by
    rw [List.getD_eq_getElem y 0 hi]
    exact List.getElem_mem hi
  simpa using h _ hv

/-- C7 counterexample: supervised labels forced to the single class 1.  The
pre computation phase of fit (the setters and the W allocation) accepts the
configuration without any error, so no configuration failure happens before
the embedding computation starts; the run instead fails inside the first
pivot selection, where the empty class 0 pool leaves the furthest ranking
empty and the selection loop variable unbound. -/
theorem claim_C7_counterexample :
    fitSetup (some [1, 1, 1]) = Except.ok true ∧
      choosePivotsSupervised (fun _ _ => 0) (fun l => l.headD 0) [1, 1, 1] =
        Except.error SupError.unboundLoopVar := by
  constructor
  · rfl
  · rfl

/-- C7 amended: fit performs no label validation before the embedding loop
(the setup phase always succeeds and merely sets the supervised flag), and
for every supervised run whose label set is empty or contains only one
class, the failure surfaces inside the first pivot selection of the
embedding loop: an empty class 1 pool makes the random draw raise, and an
otherwise empty class 0 pool leaves the furthest ranking empty so the
selection fails on an unbound loop variable.  The run errors mid
computation rather than hanging. -/
theorem claim_C7 (df : ℕ → ℕ → ℚ) (draw : List ℕ → ℕ) (y : List ℕ)
    (h : (∀ v ∈ y, v ≠ 1) ∨ (∀ v ∈ y, v ≠ 0)) :
    fitSetup (some y) = Except.ok true ∧
      ∃ e : SupError, choosePivotsSupervised df draw y = Except.error e := by
  refine ⟨rfl, ?_⟩
  rcases h with h1 | h0
  · refine ⟨SupError.emptyChoicePool, ?_⟩
    unfold choosePivotsSupervised
    rw [classIdxs_eq_nil h1]
  · cases hc1 : classIdxs y 1 with
    | nil =>
        refine ⟨SupError.emptyChoicePool, ?_⟩
        unfold choosePivotsSupervised
        rw [hc1]
    | cons a t =>
        refine ⟨SupError.unboundLoopVar, ?_⟩
        unfold choosePivotsSupervised
        rw [hc1]
        have h0e : classIdxs y 0 = [] := classIdxs_eq_nil h0
        rw [h0e]
        rfl

/-- Witness for C7 amended at the concrete single class label list [1, 1]. -/
theorem claim_C7_witness :
    fitSetup (some [1, 1]) = Except.ok true ∧
      ∃ e : SupError,
        choosePivotsSupervised (fun _ _ => 0) (fun l => l.headD 0) [1, 1] =
          Except.error e :=
  claim_C7 (fun _ _ => 0) (fun l => l.headD 0) [1, 1] (Or.inr (by decide))

lemma oscStep_zero : refineStep oscF oscG 0 = (2, 1) := by decide

lemma oscStep_one : refineStep oscF oscG 1 = (3, 0) := by decide

lemma osc_cycle : ∀ fuel : ℕ,
    refineLoop oscF oscG (some (2, 1)) 1 fuel = none ∧
      refineLoop oscF oscG (some (3, 0)) 0 fuel = none := by
  intro fuel
  induction fuel with
  | zero => exact ⟨rfl, rfl⟩
  | succ n ih =>
      constructor
      · show (let p := refineStep oscF oscG 1;
          if some (2, 1) = some p then some p
          else refineLoop oscF oscG (some p) p.2 n) = none
        rw [oscStep_one]
        simpa using ih.2
      · show (let p := refineStep oscF oscG 0;
          if some (3, 0) = some p then some p
          else refineLoop oscF oscG (some p) p.2 n) = none
        rw [oscStep_zero]
        simpa using ih.1

/-- C6 counterexample: with the concrete asymmetric oracle oscDist and the
initial class 1 draw 0, the refinement pair alternates between (2, 1) and
(3, 0) forever: consecutive pairs never coincide, and since the source loop
has no iteration cap, pivot selection oscillates without terminating. -/
theorem claim_C6_counterexample : RefineDiverges oscF oscG 0 := by
  intro fuel
  cases fuel with
  | zero => rfl
  | succ n =>
      show (let p := refineStep oscF oscG 0;
        if (none : Option (ℕ × ℕ)) = some p then some p
        else refineLoop oscF oscG (some p) p.2 n) = none
      rw [oscStep_zero]
      simpa using (osc_cycle n).1

lemma refineLoop_fixed (F G : ℕ → ℕ) :
    ∀ (fuel : ℕ) (q p : ℕ × ℕ),
      refineLoop F G (some q) q.2 fuel = some p → refineStep F G p.2 = p := by
  intro fuel
  induction fuel with
  | zero => intro q p h; exact absurd h (by simp [refineLoop])
  | succ n ih =>
      intro q p h
      by_cases he : q = refineStep F G q.2
      · have : refineLoop F G (some q) q.2 (n + 1) = some (refineStep F G q.2) := by
          show (let pn := refineStep F G q.2;
            if some q = some pn then some pn
            else refineLoop F G (some pn) pn.2 n) = some (refineStep F G q.2)
          simp [← he]
        rw [this] at h
        have hp : p = refineStep F G q.2 := (Option.some.inj h).symm
        rw [hp, ← he]
        rw [show q.2 = (refineStep F G q.2).2 from congrArg Prod.snd he, ← he]
        exact he.symm
      · have : refineLoop F G (some q) q.2 (n + 1) =
            refineLoop F G (some (refineStep F G q.2)) (refineStep F G q.2).2 n := by
          show (let pn := refineStep F G q.2;
            if some q = some pn then some pn
            else refineLoop F G (some pn) pn.2 n) =
            refineLoop F G (some (refineStep F G q.2)) (refineStep F G q.2).2 n
          simp [he]
        rw [this] at h
        exact ih _ p h

/-- C6 amended: the supervised refinement loop has no iteration cap; it
returns only by stabilization, and the returned pair is a genuine fixed
point of the refinement round (recomputing from its second component
reproduces the pair).  Termination is NOT guaranteed for every input: the
loop can oscillate forever (see the counterexample), since nothing bounds
the number of rounds. -/
theorem claim_C6 (F G : ℕ → ℕ) (j0 fuel : ℕ) (p : ℕ × ℕ)
    (h : refineLoopStart F G j0 fuel = some p) :
    refineStep F G p.2 = p := by
  cases fuel with
  | zero => exact absurd h (by simp [refineLoopStart, refineLoop])
  | succ n =>
      have h2 : refineLoop F G (some (refineStep F G j0)) (refineStep F G j0).2 n
          = some p := by
        have : refineLoopStart F G j0 (n + 1) =
            refineLoop F G (some (refineStep F G j0)) (refineStep F G j0).2 n := by
          show (let pn := refineStep F G j0;
            if (none : Option (ℕ × ℕ)) = some pn then some pn
            else refineLoop F G (some pn) pn.2 n) =
            refineLoop F G (some (refineStep F G j0)) (refineStep F G j0).2 n
          simp
        rw [← this]
        exact h
      exact refineLoop_fixed F G n _ p h2

/-- Witness for C6 amended: constant selections stabilize immediately and
the loop returns the fixed pair (5, 7). -/
theorem claim_C6_witness :
    refineStep (fun _ => 5) (fun _ => 7) 7 = (5, 7) :=
  claim_C6 (fun _ => 5) (fun _ => 7) 0 3 (5, 7) (by decide)

/-- C8 counterexample: at the end of fit the pivot index table is DELETED
along with W and X (core.py line 387 deletes self un_pivot_ids too), so the
retained trained state is not the claimed set containing the pivot index
table; and a subsequent transform on a nonempty input with two dimensions
leaves the dimension cursor at n_dim - 1 = 1, not reset to 0. -/
theorem claim_C8_counterexample :
    (fitFinalize sampleFitState).pivot_ids = none ∧
      transformEndCursor (fitFinalize sampleFitState) 2 ≠ 0 := by
  constructor
  · rfl
  · decide

/-- C8 amended: after fit the retained trained state is exactly
{X_piv, W_piv, D}: the pivot index table, the raw object set X, the full
embedding matrix W and the labels are all discarded, W_piv having been
populated from the finalized rows of W at the recorded pivot indices; the
dimension cursor is reset to 0 by fit, but transform leaves the cursor at
D - 1 on any nonempty input with D positive rather than resetting it. -/
theorem claim_C8 (s : FMState) (W0 : List (List ℚ)) (T0 : List (ℕ × ℕ))
    (hW : s.W = some W0) (hT : s.pivot_ids = some T0) :
    (fitFinalize s).X_piv = s.X_piv ∧
      (fitFinalize s).W_piv =
        some (T0.map (fun p => (W0.getD p.1 [], W0.getD p.2 []))) ∧
      (fitFinalize s).n_dim = s.n_dim ∧
      (fitFinalize s).pivot_ids = none ∧
      (fitFinalize s).X = none ∧
      (fitFinalize s).W = none ∧
      (fitFinalize s).y = none ∧
      (fitFinalize s).ihyprpln = 0 ∧
      (∀ n_obj : ℕ, 0 < n_obj → 0 < s.n_dim →
        transformEndCursor (fitFinalize s) n_obj = s.n_dim - 1) := by
  refine ⟨rfl, ?_, rfl, rfl, rfl, rfl, rfl, rfl, ?_⟩
  · simp only [fitFinalize, hW, hT]
  · intro n_obj hobj hdim
    unfold transformEndCursor
    have h1 : ¬ (n_obj = 0 ∨ (fitFinalize s).n_dim = 0) := by
      push_neg
      exact ⟨Nat.pos_iff_ne_zero.mp hobj, Nat.pos_iff_ne_zero.mp hdim⟩
    rw [if_neg h1]
    rfl

/-- Witness for C8 amended at the concrete trained state. -/
theorem claim_C8_witness :
    (fitFinalize sampleFitState).pivot_ids = none ∧
      (fitFinalize sampleFitState).ihyprpln = 0 ∧
      transformEndCursor (fitFinalize sampleFitState) 2 = 1 := by
  have h := claim_C8 sampleFitState [[0, 1], [2, 3], [4, 5], [6, 7]]
    [(0, 1), (2, 3)] rfl rfl
  exact ⟨h.2.2.2.1, h.2.2.2.2.2.2.2.1, h.2.2.2.2.2.2.2.2 2 (by norm_num) (by decide)⟩

lemma getD_map_range {β : Type} (f : ℕ → β) (n k : ℕ) (d : β) (h : k < n) :
    ((List.range n).map f).getD k d = f k := by
  have hlen : k < ((List.range n).map f).length := by simpa using h
  rw [List.getD_eq_getElem _ _ hlen]
  simp

lemma getD_map {β γ : Type} (f : β → γ) (l : List β) (k : ℕ)
    (h : k < l.length) (d : γ) (d0 : β) :
    (l.map f).getD k d = f (l.getD k d0) := by
  have hlen : k < (l.map f).length := by simpa using h
  rw [List.getD_eq_getElem _ _ hlen, List.getD_eq_getElem _ _ h]
  simp

lemma getD_mem {β : Type} (l : List β) (k : ℕ) (d : β) (h : k < l.length) :
    l.getD k d ∈ l := by
  rw [List.getD_eq_getElem _ _ h]
  exact List.getElem_mem h

lemma take_succ_getD {β : Type} (l : List β) (e : ℕ) (d : β)
    (h : e < l.length) :
    l.take (e + 1) = l.take e ++ [l.getD e d] := by
  induction l generalizing e with
  | nil => simp at h
  | cons a t ih =>
      cases e with
      | zero => simp
      | succ m =>
          have hm : m < t.length := by simpa using h
          simp only [List.take_succ_cons, List.getD_cons_succ, List.cons_append,
            List.cons.injEq, true_and]
          exact ih m hm

lemma take_zipWith {β γ δ : Type} (f : β → γ → δ) :
    ∀ (n : ℕ) (l1 : List β) (l2 : List γ),
      (List.zipWith f l1 l2).take n = List.zipWith f (l1.take n) (l2.take n) := by
  intro n
  induction n with
  | zero => intro l1 l2; simp
  | succ m ih =>
      intro l1 l2
      cases l1 with
      | nil => simp
      | cons a t1 =>
          cases l2 with
          | nil => simp
          | cons b t2 => simp [ih]

lemma zipWith_take_right {β γ δ : Type} (f : β → γ → δ) :
    ∀ (l1 : List β) (l2 : List γ),
      List.zipWith f l1 (l2.take l1.length) = List.zipWith f l1 l2 := by
  intro l1
  induction l1 with
  | nil => intro l2; simp
  | cons a t1 ih =>
      intro l2
      cases l2 with
      | nil => simp
      | cons b t2 => simp [ih]

section FitStructure

variable {α : Type} [Inhabited α] (s : ℚ → ℚ) (df : α → α → ℚ) (X : List α)

lemma fitStep_getD (W : List (List ℚ)) (p : ℕ × ℕ) (k : ℕ)
    (hk : k < X.length) :
    (fitStep s df X W p).getD k [] =
      W.getD k [] ++ [max (fitCoordAt s df X W p k) 0] := by
  unfold fitStep
  exact getD_map_range _ _ _ _ hk

lemma foldl_fitStep_rowlen :
    ∀ (L : List (ℕ × ℕ)) (W : List (List ℚ)) (c : ℕ),
      (∀ k, k < X.length → (W.getD k []).length = c) →
      ∀ k, k < X.length →
        ((L.foldl (fitStep s df X) W).getD k []).length = c + L.length := by
  intro L
  induction L with
  | nil => intro W c hc k hk; simpa using hc k hk
  | cons p rest ih =>
      intro W c hc k hk
      have hstep : ∀ j, j < X.length →
          ((fitStep s df X W p).getD j []).length = c + 1 := by
        intro j hj
        rw [fitStep_getD s df X W p j hj, List.length_append, hc j hj]
        rfl
      have := ih (fitStep s df X W p) (c + 1) hstep k hk
      simpa [Nat.add_assoc, Nat.add_comm 1 rest.length] using this

lemma fitW_rowlen (L : List (ℕ × ℕ)) (k : ℕ) (hk : k < X.length) :
    ((fitW s df X L).getD k []).length = L.length := by
  unfold fitW
  have h0 : ∀ j, j < X.length →
      (((List.range X.length).map (fun _ => ([] : List ℚ))).getD j []).length = 0 := by
    intro j hj
    rw [getD_map_range _ _ _ _ hj]
    rfl
  simpa using foldl_fitStep_rowlen s df X L _ 0 h0 k hk

lemma foldl_fitStep_suffix :
    ∀ (L : List (ℕ × ℕ)) (W : List (List ℚ)) (k : ℕ), k < X.length →
      ∃ suf : List ℚ,
        (L.foldl (fitStep s df X) W).getD k [] = W.getD k [] ++ suf := by
  intro L
  induction L with
  | nil => intro W k _; exact ⟨[], by simp⟩
  | cons p rest ih =>
      intro W k hk
      obtain ⟨suf, hsuf⟩ := ih (fitStep s df X W p) k hk
      refine ⟨[max (fitCoordAt s df X W p k) 0] ++ suf, ?_⟩
      rw [List.foldl_cons, hsuf, fitStep_getD s df X W p k hk]
      simp

lemma fitW_take_prefix (L : List (ℕ × ℕ)) (e k : ℕ) (he : e ≤ L.length)
    (hk : k < X.length) :
    ((fitW s df X L).getD k []).take e = (fitW s df X (L.take e)).getD k [] := by
  have hsplit : L = L.take e ++ L.drop e := (List.take_append_drop e L).symm
  have hfold : fitW s df X L =
      (L.drop e).foldl (fitStep s df X) (fitW s df X (L.take e)) := by
    conv_lhs => rw [hsplit]
    unfold fitW
    rw [List.foldl_append]
  obtain ⟨suf, hsuf⟩ :=
    foldl_fitStep_suffix s df X (L.drop e) (fitW s df X (L.take e)) k hk
  have hlen : ((fitW s df X (L.take e)).getD k []).length = e := by
    rw [fitW_rowlen s df X (L.take e) k hk]
    exact List.length_take_of_le he
  rw [hfold, hsuf]
  have htl := List.take_left ((fitW s df X (L.take e)).getD k []) suf
  rw [hlen] at htl
  exact htl

lemma fitW_take_succ (L : List (ℕ × ℕ)) (e k : ℕ) (he : e < L.length)
    (hk : k < X.length) :
    (fitW s df X (L.take (e + 1))).getD k [] =
      (fitW s df X (L.take e)).getD k [] ++
        [max (fitPre s df X L k e) 0] := by
  have hsucc : L.take (e + 1) = L.take e ++ [L.getD e (0, 0)] :=
    take_succ_getD L e (0, 0) he
  have : fitW s df X (L.take (e + 1)) =
      fitStep s df X (fitW s df X (L.take e)) (L.getD e (0, 0)) := by
    rw [hsucc]
    unfold fitW
    rw [List.foldl_append]
    rfl
  rw [this, fitStep_getD s df X _ _ k hk]
  rfl

lemma fitW_entries_nonneg :
    ∀ (L : List (ℕ × ℕ)) (row : List ℚ), row ∈ fitW s df X L →
      ∀ q ∈ row, 0 ≤ q := by
  have hstep : ∀ (W : List (List ℚ)) (p : ℕ × ℕ),
      (∀ row ∈ W, ∀ q ∈ row, 0 ≤ q) →
      ∀ row ∈ fitStep s df X W p, ∀ q ∈ row, 0 ≤ q := by
    intro W p hW row hrow q hq
    unfold fitStep at hrow
    rw [List.mem_map] at hrow
    obtain ⟨k, hkmem, hkrow⟩ := hrow
    rw [← hkrow] at hq
    rcases List.mem_append.mp hq with hq1 | hq2
    · by_cases hkW : k < W.length
      · exact hW _ (getD_mem W k [] hkW) q hq1
      · have : W.getD k [] = [] :=
          List.getD_eq_default _ _ (le_of_not_lt hkW)
        rw [this] at hq1
        exact absurd hq1 (List.not_mem_nil q)
    · have : q = max (fitCoordAt s df X W p k) 0 := by simpa using hq2
      rw [this]
      exact le_max_right _ _
  have hfold : ∀ (L : List (ℕ × ℕ)) (W : List (List ℚ)),
      (∀ row ∈ W, ∀ q ∈ row, 0 ≤ q) →
      ∀ row ∈ L.foldl (fitStep s df X) W, ∀ q ∈ row, 0 ≤ q := by
    intro L
    induction L with
    | nil => intro W hW; simpa using hW
    | cons p rest ih =>
        intro W hW
        exact ih (fitStep s df X W p) (hstep W p hW)
  intro L row hrow
  refine hfold L _ ?_ row hrow
  intro r hr q hq
  rw [List.mem_map] at hr
  obtain ⟨k, _, hk⟩ := hr
  rw [← hk] at hq
  exact absurd hq (List.not_mem_nil q)

end FitStructure

lemma trainedPivData_length {α : Type} [Inhabited α] (s : ℚ → ℚ)
    (df : α → α → ℚ) (X : List α) (pivs : List (ℕ × ℕ)) :
    (trainedPivData s df X pivs).length = pivs.length := by
  unfold trainedPivData
  simp

lemma transform_replays_fit {α : Type} [Inhabited α] (s : ℚ → ℚ)
    (df : α → α → ℚ) (X : List α) (pivs : List (ℕ × ℕ)) (k : ℕ)
    (hk : k < X.length)
    (hvalid : ∀ p ∈ pivs, p.1 < X.length ∧ p.2 < X.length)
    (hpos : ∀ e, e < pivs.length → 0 ≤ fitPre s df X pivs k e) :
    ∀ e, e ≤ pivs.length →
      ((trainedPivData s df X pivs).take e).foldl
          (transStep s df (X.getD k default)) []
        = (fitW s df X (pivs.take e)).getD k [] := by
  intro e
  induction e with
  | zero =>
      intro _
      simp only [List.take_zero, List.foldl_nil]
      unfold fitW
      simp only [List.take_zero, List.foldl_nil]
      rw [getD_map_range (fun _ => ([] : List ℚ)) X.length k [] hk]
  | succ m ih =>
      intro hme
      have hm : m < pivs.length := Nat.lt_of_succ_le hme
      have hmle : m ≤ pivs.length := le_of_lt hm
      have hpdlen : m < (trainedPivData s df X pivs).length := by
        rw [trainedPivData_length]
        exact hm
      rw [take_succ_getD (trainedPivData s df X pivs) m
            ((default, default), ([], [])) hpdlen, List.foldl_append,
        ih hmle]
      set p := pivs.getD m (0, 0) with hp
      have hpmem : p ∈ pivs := getD_mem pivs m (0, 0) hm
      have hp1 : p.1 < X.length := (hvalid p hpmem).1
      have hp2 : p.2 < X.length := (hvalid p hpmem).2
      have hpd : (trainedPivData s df X pivs).getD m
            ((default, default), ([], []))
          = ((X.getD p.1 default, X.getD p.2 default),
              ((fitW s df X pivs).getD p.1 [], (fitW s df X pivs).getD p.2 [])) := by
        unfold trainedPivData
        rw [getD_map _ pivs m hm _ (0, 0), ← hp]
      rw [List.foldl_cons, List.foldl_nil, hpd]
      have hrlen : ((fitW s df X (pivs.take m)).getD k []).length = m := by
        rw [fitW_rowlen s df X _ k hk, List.length_take_of_le hmle]
      have hW1 : ((fitW s df X pivs).getD p.1 []).take m
          = (fitW s df X (pivs.take m)).getD p.1 [] :=
        fitW_take_prefix s df X pivs m p.1 hmle hp1
      have hW2 : ((fitW s df X pivs).getD p.2 []).take m
          = (fitW s df X (pivs.take m)).getD p.2 [] :=
        fitW_take_prefix s df X pivs m p.2 hmle hp2
      have hd1 : sqDiffs ((fitW s df X (pivs.take m)).getD k [])
            ((fitW s df X pivs).getD p.1 [])
          = sqDiffs ((fitW s df X (pivs.take m)).getD k [])
              ((fitW s df X (pivs.take m)).getD p.1 []) := by
        unfold sqDiffs
        rw [← zipWith_take_right _ ((fitW s df X (pivs.take m)).getD k [])
              ((fitW s df X pivs).getD p.1 []), hrlen, hW1]
      have hd3 : sqDiffs ((fitW s df X (pivs.take m)).getD k [])
            ((fitW s df X pivs).getD p.2 [])
          = sqDiffs ((fitW s df X (pivs.take m)).getD k [])
              ((fitW s df X (pivs.take m)).getD p.2 []) := by
        unfold sqDiffs
        rw [← zipWith_take_right _ ((fitW s df X (pivs.take m)).getD k [])
              ((fitW s df X pivs).getD p.2 []), hrlen, hW2]
      have hd2 : (sqDiffs ((fitW s df X pivs).getD p.1 [])
              ((fitW s df X pivs).getD p.2 [])).take
            ((fitW s df X (pivs.take m)).getD k []).length
          = sqDiffs ((fitW s df X (pivs.take m)).getD p.1 [])
              ((fitW s df X (pivs.take m)).getD p.2 []) := by
        rw [hrlen]
        unfold sqDiffs
        rw [take_zipWith, hW1, hW2]
      show (fitW s df X (pivs.take m)).getD k [] ++
          [coordFormula
            (residualLoop s (df (X.getD k default) (X.getD p.1 default))
              (sqDiffs ((fitW s df X (pivs.take m)).getD k [])
                ((fitW s df X pivs).getD p.1 [])))
            (residualLoop s (df (X.getD p.1 default) (X.getD p.2 default))
              ((sqDiffs ((fitW s df X pivs).getD p.1 [])
                  ((fitW s df X pivs).getD p.2 [])).take
                ((fitW s df X (pivs.take m)).getD k []).length))
            (residualLoop s (df (X.getD k default) (X.getD p.2 default))
              (sqDiffs ((fitW s df X (pivs.take m)).getD k [])
                ((fitW s df X pivs).getD p.2 [])))]
        = (fitW s df X (pivs.take (m + 1))).getD k []
      rw [hd1, hd2, hd3, fitW_take_succ s df X pivs m k hm hk,
        max_eq_left (hpos m hm)]
      rfl

lemma conc_transform_shape : ∃ t : ℚ,
    transformRow (fun x => x) dConc
        (trainedPivData (fun x => x) dConc XConc pivsConc) 2
      = [coordFormula 1 12 13, t] :=
  ⟨_, rfl⟩

lemma conc_fitRow2_shape : ∃ t : ℚ,
    (fitW (fun x => x) dConc XConc pivsConc).getD 2 []
      = [max (coordFormula 1 12 13) 0, t] :=
  ⟨_, rfl⟩

lemma conc_coord_neg : coordFormula 1 12 13 = -(24 / (24 + epsQ)) := by
  unfold coordFormula epsQ
  norm_num

/-- C2 counterexample: in the concrete model the pivot pair of dimension 1
is (2, 3), and object 2 had a negative unclipped coordinate at dimension 0,
clipped to 0 by fit but NOT clipped by transform.  Applying transform to
the stored raw pivot object of dimension 1 therefore yields first
coordinate -24 / (24 + EPSILON), about -1, while the stored snapshot
W_piv[1] row holds 0 there: the rows differ by about 1, far beyond floating
point tolerance.  The differing coordinate is computed at dimension 0 where
no residual correction runs, so no square root is involved in it. -/
theorem claim_C2_counterexample :
    (transformRow (fun x => x) dConc
        (trainedPivData (fun x => x) dConc XConc pivsConc) 2).headD 9
        = -(24 / (24 + epsQ)) ∧
      ((WpivRows (fun x => x) dConc XConc pivsConc 1).1).headD 9 = 0 ∧
      transformRow (fun x => x) dConc
          (trainedPivData (fun x => x) dConc XConc pivsConc) 2
        ≠ (WpivRows (fun x => x) dConc XConc pivsConc 1).1 := by
  obtain ⟨t1, ht1⟩ := conc_transform_shape
  obtain ⟨t2, ht2⟩ := conc_fitRow2_shape
  have hmax : max (coordFormula 1 12 13) 0 = 0 := by
    rw [conc_coord_neg, max_eq_right]
    rw [neg_nonpos]
    unfold epsQ
    positivity
  have hW : (WpivRows (fun x => x) dConc XConc pivsConc 1).1
      = (fitW (fun x => x) dConc XConc pivsConc).getD 2 [] := rfl
  refine ⟨?_, ?_, ?_⟩
  · rw [ht1]
    simp [conc_coord_neg]
  · rw [hW, ht2, hmax]
    rfl
  · rw [hW, ht1, ht2, hmax]
    intro h
    have hhead : coordFormula 1 12 13 = 0 := (List.cons.injEq _ _ _ _).mp h |>.1
    rw [conc_coord_neg] at hhead
    have : (0 : ℚ) < 24 / (24 + epsQ) := by
      unfold epsQ
      positivity
    linarith [neg_eq_zero.mp hhead]

/-- C2 amended: applying transform to the two stored pivot objects of
dimension d reproduces the stored pivot embedding snapshot W_piv[d]
EXACTLY, for every model trained by fit in which the clip to zero was a no
op on the coordinates of those two pivot objects (their unclipped
coordinates were nonnegative at every dimension); without that proviso the
claim fails, because transform omits the clip that fit applies. -/
theorem claim_C2 {α : Type} [Inhabited α] (s : ℚ → ℚ) (df : α → α → ℚ)
    (X : List α) (pivs : List (ℕ × ℕ)) (d : ℕ) (hd : d < pivs.length)
    (hvalid : ∀ p ∈ pivs, p.1 < X.length ∧ p.2 < X.length)
    (hposi : ∀ e, e < pivs.length →
      0 ≤ fitPre s df X pivs (pivs.getD d (0, 0)).1 e)
    (hposj : ∀ e, e < pivs.length →
      0 ≤ fitPre s df X pivs (pivs.getD d (0, 0)).2 e) :
    transformRow s df (trainedPivData s df X pivs)
        (X.getD (pivs.getD d (0, 0)).1 default) = (WpivRows s df X pivs d).1 ∧
      transformRow s df (trainedPivData s df X pivs)
        (X.getD (pivs.getD d (0, 0)).2 default) = (WpivRows s df X pivs d).2 := by
  have hpmem : pivs.getD d (0, 0) ∈ pivs := getD_mem pivs d (0, 0) hd
  have hfull : (trainedPivData s df X pivs).take pivs.length
      = trainedPivData s df X pivs := by
    rw [← trainedPivData_length s df X pivs]
    exact List.take_length _
  have h1 := transform_replays_fit s df X pivs (pivs.getD d (0, 0)).1
    (hvalid _ hpmem).1 hvalid hposi pivs.length (le_refl _)
  have h2 := transform_replays_fit s df X pivs (pivs.getD d (0, 0)).2
    (hvalid _ hpmem).2 hvalid hposj pivs.length (le_refl _)
  rw [hfull, List.take_length] at h1 h2
  exact ⟨h1, h2⟩

lemma dTiny_fitPre_zero : ∀ e, e < ([((0 : ℕ), (1 : ℕ))] : List (ℕ × ℕ)).length →
    0 ≤ fitPre (fun x => x) dTiny XTiny [(0, 1)] 0 e := by
  intro e he
  have he0 : e = 0 := by
    simpa using Nat.lt_one_iff.mp (by simpa using he)
  subst he0
  have h : fitPre (fun x => x) dTiny XTiny [(0, 1)] 0 0 = coordFormula 0 1 1 := rfl
  rw [h]
  unfold coordFormula epsQ
  norm_num

lemma dTiny_fitPre_one : ∀ e, e < ([((0 : ℕ), (1 : ℕ))] : List (ℕ × ℕ)).length →
    0 ≤ fitPre (fun x => x) dTiny XTiny [(0, 1)] 1 e := by
  intro e he
  have he0 : e = 0 := by
    simpa using Nat.lt_one_iff.mp (by simpa using he)
  subst he0
  have h : fitPre (fun x => x) dTiny XTiny [(0, 1)] 1 0 = coordFormula 1 1 0 := rfl
  rw [h]
  unfold coordFormula epsQ
  norm_num

/-- Witness for C2 amended: two objects at distance 1, one dimension with
pivots (0, 1); no clip fires and transform reproduces both stored pivot
rows. -/
theorem claim_C2_witness :
    transformRow (fun x => x) dTiny
        (trainedPivData (fun x => x) dTiny XTiny [(0, 1)])
        (XTiny.getD (([((0 : ℕ), (1 : ℕ))] : List (ℕ × ℕ)).getD 0 (0, 0)).1 default)
      = (WpivRows (fun x => x) dTiny XTiny [(0, 1)] 0).1 ∧
      transformRow (fun x => x) dTiny
        (trainedPivData (fun x => x) dTiny XTiny [(0, 1)])
        (XTiny.getD (([((0 : ℕ), (1 : ℕ))] : List (ℕ × ℕ)).getD 0 (0, 0)).2 default)
      = (WpivRows (fun x => x) dTiny XTiny [(0, 1)] 0).2 :=
  claim_C2 (fun x => x) dTiny XTiny [(0, 1)] 0
    (by norm_num) (by intro p hp; simp at hp; simp [hp, XTiny])
    dTiny_fitPre_zero dTiny_fitPre_one

/-- C5: during fit every stored coordinate is clipped so that negative
results become zero, hence every entry of every row of the training
embedding matrix is nonnegative for every training set, oracle and square
root; transform applies the same per dimension formula WITHOUT the clip,
and on the concrete model it outputs a strictly negative coordinate
(first coordinate -24 / (24 + EPSILON) for the object at index 2). -/
theorem claim_C5 :
    (∀ (α : Type) [Inhabited α] (s : ℚ → ℚ) (df : α → α → ℚ)
        (X : List α) (pivs : List (ℕ × ℕ)),
      ∀ row ∈ fitW s df X pivs, ∀ q ∈ row, 0 ≤ q) ∧
      (transformRow (fun x => x) dConc
        (trainedPivData (fun x => x) dConc XConc pivsConc) 2).headD 9 < 0 := by
  constructor
  · intro α inst s df X pivs row hrow q hq
    exact fitW_entries_nonneg s df X pivs row hrow q hq
  · obtain ⟨t1, ht1⟩ := conc_transform_shape
    rw [ht1]
    show coordFormula 1 12 13 < 0
    rw [conc_coord_neg]
    have h24 : (0 : ℚ) < 24 / (24 + epsQ) := by
      unfold epsQ
      positivity
    linarith

/-- Witness for C5: the fit nonnegativity applied to the second row entry
of the tiny two object model. -/
theorem claim_C5_witness :
    (0 : ℚ) ≤ max (coordFormula 1 1 0) 0 :=
  claim_C5.1 ℕ (fun x => x) dTiny XTiny [(0, 1)]
    [max (coordFormula 1 1 0) 0]
    (by
      show [max (coordFormula 1 1 0) 0] ∈
        [[max (coordFormula 0 1 1) 0], [max (coordFormula 1 1 0) 0]]
      simp)
    (max (coordFormula 1 1 0) 0) (by simp)

/-- C3 counterexample: embed_database in fastmap.py divides by 2 * d_ij
with NO additive epsilon, so a coincident pivot pair (residual pivot
distance exactly 0) makes the denominator exactly 0 and the resulting
column entries non finite (numpy inf or nan), while the guarded fit
coordinate of core.py stays finite at the same inputs. -/
theorem claim_C3_counterexample :
    embedDbCoord 1 0 1 = none ∧ fitCoordGuarded 1 0 1 = some 0 := by
  constructor
  · simp [embedDbCoord, safeDiv]
  · have heps : (2 * (0 : ℚ) + epsQ) ≠ 0 := by
      unfold epsQ
      norm_num
    simp [fitCoordGuarded, safeDiv, heps]
    exact ⟨0, ⟨by unfold epsQ; norm_num, rfl⟩, le_refl 0⟩

/-- C3 amended: in core.py fit the coordinate denominator is
2 * d_ij + EPSILON, which is strictly positive for every nonnegative
residual pivot distance, so a coincident pivot pair causes no division by
zero and every entry of the embedding column is a finite (clipped)
value. In fastmap.py embed_database the epsilon guard is absent and the
guarantee fails (see the counterexample). -/
theorem claim_C3 (dik dij djk : ℚ) (h : 0 ≤ dij) :
    0 < 2 * dij + epsQ ∧
      fitCoordGuarded dik dij djk = some (max (coordFormula dik dij djk) 0) := by
  have hpos : 0 < 2 * dij + epsQ := by
    have he : (0 : ℚ) < epsQ := by unfold epsQ; norm_num
    linarith
  refine ⟨hpos, ?_⟩
  unfold fitCoordGuarded safeDiv coordFormula
  rw [if_neg (ne_of_gt hpos)]
  rfl

/-- Witness for C3 amended at the exactly coincident pivot distance 0. -/
theorem claim_C3_witness :
    0 < 2 * (0 : ℚ) + epsQ ∧
      fitCoordGuarded 1 0 1 = some (max (coordFormula 1 0 1) 0) :=
  claim_C3 1 0 1 (le_refl 0)

end FastMap

